import Mathlib

/-!
Shallow embedding of the py-mdd library (repository `mvcisback/py-mdd`,
source files `mdd/mdd.py` and `mdd/nx.py`).

The BDD substrate (`dd` via `aiger_bdd`) is an opaque *canonical*
representation of boolean functions over named bits: two circuits produce
the same BDD node exactly when they denote the same boolean function.  We
therefore embed formulas as the inductive type `Mdd.BF` of bit-level
boolean expressions and compare them by semantic equivalence (`BF.equiv`),
which is decidable because a formula only depends on the finitely many bits
occurring in it.  A bit named `"x[3]"` on the Python side is the pair
`("x", 3)` here (`name_index` in `mdd.py` parses the string form back into
such a pair, so the two representations are in bijection).
-/

set_option linter.unusedSectionVars false
set_option linter.unusedVariables false

namespace Mdd

/-- A bit-level boolean formula: the denotation of a BDD node or py-aiger
circuit over named bits.  `bit n i` is the bit `n[i]` of the bit-vector
signal `n`. -/
inductive BF where
  | tt
  | ff
  | bit (name : String) (idx : Nat)
  | and (p q : BF)
  | or (p q : BF)
  | not (p : BF)
deriving DecidableEq, Repr

/-- Evaluate a formula under an assignment of all bits. -/
def BF.eval : BF → ((String × Nat) → Bool) → Bool
  | .tt, _ => true
  | .ff, _ => false
  | .bit n i, a => a (n, i)
  | .and p q, a => p.eval a && q.eval a
  | .or p q, a => p.eval a || q.eval a
  | .not p, a => !(p.eval a)

/-- The bits occurring syntactically in a formula. -/
def BF.support : BF → List (String × Nat)
  | .tt => []
  | .ff => []
  | .bit n i => [(n, i)]
  | .and p q => p.support ++ q.support
  | .or p q => p.support ++ q.support
  | .not p => p.support

/-- Substitute constants for the bits listed in `σ`; this is the BDD
`let`/`restrict` operation (`self.bdd.let(**vals)` in `mdd.py`). -/
def BF.restrict (σ : List ((String × Nat) × Bool)) : BF → BF
  | .tt => .tt
  | .ff => .ff
  | .bit n i =>
      match σ.lookup (n, i) with
      | some true => .tt
      | some false => .ff
      | none => .bit n i
  | .and p q => .and (BF.restrict σ p) (BF.restrict σ q)
  | .or p q => .or (BF.restrict σ p) (BF.restrict σ q)
  | .not p => .not (BF.restrict σ p)

/-- The assignment obtained from `a` by overriding the bits listed in `σ`. -/
def patch (σ : List ((String × Nat) × Bool)) (a : (String × Nat) → Bool) :
    (String × Nat) → Bool :=
  fun b => (σ.lookup b).getD (a b)

theorem eval_restrict (σ : List ((String × Nat) × Bool)) (p : BF)
    (a : (String × Nat) → Bool) :
    (BF.restrict σ p).eval a = p.eval (patch σ a) := by
  induction p with
  | tt => rfl
  | ff => rfl
  | bit n i =>
      simp only [BF.restrict, BF.eval, patch]
      rcases h : σ.lookup (n, i) with _ | b
      · simp [BF.eval]
      · cases b <;> simp [BF.eval]
  | and p q ihp ihq => simp [BF.restrict, BF.eval, ihp, ihq]
  | or p q ihp ihq => simp [BF.restrict, BF.eval, ihp, ihq]
  | not p ihp => simp [BF.restrict, BF.eval, ihp]

theorem eval_eq_of_agree {p : BF} {a₁ a₂ : (String × Nat) → Bool}
    (h : ∀ b ∈ p.support, a₁ b = a₂ b) : p.eval a₁ = p.eval a₂ := by
  induction p with
  | tt => rfl
  | ff => rfl
  | bit n i => exact h (n, i) (by simp [BF.support])
  | and p q ihp ihq =>
      simp only [BF.eval]
      rw [ihp fun b hb => h b (by simp [BF.support, hb]),
        ihq fun b hb => h b (by simp [BF.support, hb])]
  | or p q ihp ihq =>
      simp only [BF.eval]
      rw [ihp fun b hb => h b (by simp [BF.support, hb]),
        ihq fun b hb => h b (by simp [BF.support, hb])]
  | not p ihp =>
      simp only [BF.eval]
      rw [ihp fun b hb => h b (by simp [BF.support, hb])]

/-- All assignments of the bits in `bs`, as association lists. -/
def envs : List (String × Nat) → List (List ((String × Nat) × Bool))
  | [] => [[]]
  | b :: bs =>
      (envs bs).map (fun e => (b, true) :: e) ++
        (envs bs).map (fun e => (b, false) :: e)

/-- Turn an association list into a total assignment (default `false`). -/
def ofEnv (e : List ((String × Nat) × Bool)) : (String × Nat) → Bool :=
  patch e (fun _ => false)

theorem exists_env (bs : List (String × Nat)) (a : (String × Nat) → Bool) :
    ∃ e ∈ envs bs, ∀ b ∈ bs, ofEnv e b = a b := by
  induction bs with
  | nil => exact ⟨[], by simp [envs], by simp⟩
  | cons b bs ih =>
      obtain ⟨e, he, hag⟩ := ih
      refine ⟨(b, a b) :: e, ?_, ?_⟩
      · rcases hb : a b with _ | _
        · exact List.mem_append.mpr (Or.inr (List.mem_map.mpr ⟨e, he, rfl⟩))
        · exact List.mem_append.mpr (Or.inl (List.mem_map.mpr ⟨e, he, rfl⟩))
      · intro b' hb'
        by_cases hbb : b' = b
        · subst hbb; simp [ofEnv, patch, List.lookup]
        · have hmem : b' ∈ bs := by
            rcases List.mem_cons.mp hb' with h | h
            · exact absurd h hbb
            · exact h
          have : ((b, a b) :: e).lookup b' = e.lookup b' := by
            simp [List.lookup, beq_false_of_ne hbb]
          simp only [ofEnv, patch, this]
          exact hag b' hmem

/-- Decidable satisfiability of a formula: the BDD node is not the `false`
terminal exactly when the denoted function is satisfiable (canonicity). -/
def BF.satB (p : BF) : Bool :=
  (envs p.support).any (fun e => p.eval (ofEnv e))

/-- Decidable semantic equivalence: two formulas denote the same BDD node
exactly when they evaluate equally everywhere (canonicity). -/
def BF.equiv (p q : BF) : Bool :=
  (envs (p.support ++ q.support)).all
    (fun e => p.eval (ofEnv e) == q.eval (ofEnv e))

theorem satB_iff {p : BF} : p.satB = true ↔ ∃ a, p.eval a = true := by
  constructor
  · intro h
    obtain ⟨e, _, he⟩ := List.any_eq_true.mp h
    exact ⟨ofEnv e, he⟩
  · rintro ⟨a, ha⟩
    obtain ⟨e, he, hag⟩ := exists_env p.support a
    refine List.any_eq_true.mpr ⟨e, he, ?_⟩
    rw [eval_eq_of_agree hag]; exact ha

theorem equiv_iff {p q : BF} :
    BF.equiv p q = true ↔ ∀ a, p.eval a = q.eval a := by
  constructor
  · intro h a
    obtain ⟨e, he, hag⟩ := exists_env (p.support ++ q.support) a
    have h1 : p.eval (ofEnv e) = p.eval a :=
      eval_eq_of_agree fun b hb => hag b (by simp [hb])
    have h2 : q.eval (ofEnv e) = q.eval a :=
      eval_eq_of_agree fun b hb => hag b (by simp [hb])
    have := List.all_eq_true.mp h e he
    rw [← h1, ← h2]
    exact eq_of_beq this
  · intro h
    refine List.all_eq_true.mpr fun e _ => ?_
    exact beq_iff_eq.mpr (h (ofEnv e))

theorem bool_eq_of_iff {a b : Bool} (h : a = true ↔ b = true) : a = b := by
  cases a <;> cases b <;> simp_all

theorem satB_congr {p q : BF} (h : ∀ a, p.eval a = q.eval a) :
    p.satB = q.satB := by
  refine bool_eq_of_iff ?_
  rw [satB_iff, satB_iff]
  exact ⟨fun ⟨a, ha⟩ => ⟨a, (h a).symm.trans ha⟩,
    fun ⟨a, ha⟩ => ⟨a, (h a).trans ha⟩⟩

theorem equiv_congr_left {p q : BF} (h : ∀ a, p.eval a = q.eval a) (r : BF) :
    BF.equiv p r = BF.equiv q r := by
  refine bool_eq_of_iff ?_
  rw [equiv_iff, equiv_iff]
  exact ⟨fun h' a => (h a).symm.trans (h' a), fun h' a => (h a).trans (h' a)⟩

theorem restrict_nil (p : BF) : BF.restrict [] p = p := by
  induction p <;> simp [BF.restrict, List.lookup, *]

theorem lookup_append {κ β : Type} [BEq κ] (l₁ l₂ : List (κ × β)) (k : κ) :
    (l₁ ++ l₂).lookup k = ((l₁.lookup k).orElse fun _ => l₂.lookup k) := by
  induction l₁ with
  | nil => simp [List.lookup]
  | cons x l₁ ih =>
      rcases hx : k == x.1 with _ | _ <;>
        simp [List.lookup, hx, ih, Option.orElse]

theorem restrict_restrict (σ₁ σ₂ : List ((String × Nat) × Bool)) (p : BF) :
    BF.restrict σ₂ (BF.restrict σ₁ p) = BF.restrict (σ₁ ++ σ₂) p := by
  induction p with
  | tt => rfl
  | ff => rfl
  | bit n i =>
      simp only [BF.restrict, lookup_append]
      rcases h : σ₁.lookup (n, i) with _ | b
      · simp [BF.restrict, Option.orElse]
      · cases b <;> simp [BF.restrict, Option.orElse]
  | and p q ihp ihq => simp [BF.restrict, ihp, ihq]
  | or p q ihp ihq => simp [BF.restrict, ihp, ihq]
  | not p ihp => simp [BF.restrict, ihp]

/-!
Arithmetic of the one-hot encoding (`pow2_exponent`, the one-hot validity
circuit built in `to_var`, `mdd/mdd.py` lines 86-136).
-/

/-- One step of the loop `while val > 1: count += 1; val >>= 1` from
`pow2_exponent` in `mdd.py`, with explicit fuel so that the kernel can
evaluate it; the loop runs at most `val` times.  Returns the final
`(count, val)` pair. -/
def pow2Iter : Nat → Nat → Nat × Nat
  | 0, v => (0, v)
  | fuel + 1, v =>
      if 1 < v then
        (let p := pow2Iter fuel (v / 2); (p.1 + 1, p.2))
      else (0, v)

/-- `pow2_exponent(val)` from `mdd.py`: shift right until the value is at
most 1, counting shifts, then `assert val == 1`.  The Python `assert`
failure (an `AssertionError`, e.g. on input 0) is modelled by `none`. -/
def pow2_exponent (val : Nat) : Option Nat :=
  let p := pow2Iter val val
  if p.2 = 1 then some p.1 else none

theorem pow2Iter_fuel (fuel₁ : Nat) :
    ∀ fuel₂ v, v ≤ fuel₁ → v ≤ fuel₂ → pow2Iter fuel₁ v = pow2Iter fuel₂ v := by
  induction fuel₁ with
  | zero =>
      intro fuel₂ v h₁ _
      interval_cases v
      cases fuel₂ <;> simp [pow2Iter]
  | succ f₁ ih =>
      intro fuel₂ v h₁ h₂
      by_cases hv : 1 < v
      · obtain ⟨f₂, rfl⟩ : ∃ f₂, fuel₂ = f₂ + 1 :=
          ⟨fuel₂ - 1, by omega⟩
        have hdiv : v / 2 < v := Nat.div_lt_self (by omega) (by omega)
        simp only [pow2Iter, if_pos hv]
        rw [ih f₂ (v / 2) (by omega) (by omega)]
      · cases fuel₂ <;> simp [pow2Iter, hv]

theorem pow2Iter_of_bounds (i : Nat) :
    ∀ fuel m, m ≤ fuel → 2 ^ i ≤ m → m < 2 ^ (i + 1) →
      pow2Iter fuel m = (i, 1) := by
  induction i with
  | zero =>
      intro fuel m _ hlo hhi
      have hlo' : 1 ≤ m := by simpa using hlo
      have hhi' : m < 2 := by simpa using hhi
      have hm : m = 1 := by omega
      subst hm
      cases fuel <;> simp [pow2Iter]
  | succ i ih =>
      intro fuel m hfuel hlo hhi
      have h2 : 2 ^ (i + 1) ≥ 2 := by
        calc 2 = 2 ^ 1 := rfl
        _ ≤ 2 ^ (i + 1) := Nat.pow_le_pow_right (by omega) (by omega)
      have hm1 : 1 < m := by omega
      obtain ⟨f, rfl⟩ : ∃ f, fuel = f + 1 := ⟨fuel - 1, by omega⟩
      have hlo' : 2 ^ i ≤ m / 2 := by
        rw [Nat.le_div_iff_mul_le (by omega)]
        calc 2 ^ i * 2 = 2 ^ (i + 1) := (Nat.pow_succ ..).symm
        _ ≤ m := hlo
      have hhi' : m / 2 < 2 ^ (i + 1) := by
        rw [Nat.div_lt_iff_lt_mul (by omega)]
        calc m < 2 ^ (i + 1 + 1) := hhi
        _ = 2 ^ (i + 1) * 2 := Nat.pow_succ ..
      have hf : m / 2 ≤ f := by
        have := Nat.div_lt_self (by omega : 0 < m) (by omega : 1 < 2)
        omega
      simp only [pow2Iter, if_pos hm1]
      rw [ih f (m / 2) hf hlo' hhi']

theorem pow2_exponent_of_bounds {i m : Nat} (hlo : 2 ^ i ≤ m)
    (hhi : m < 2 ^ (i + 1)) : pow2_exponent m = some i := by
  unfold pow2_exponent
  rw [pow2Iter_of_bounds i m m le_rfl hlo hhi]
  rfl

theorem pow2_exponent_two_pow (i : Nat) : pow2_exponent (2 ^ i) = some i :=
  pow2_exponent_of_bounds le_rfl
    (Nat.pow_lt_pow_right (by omega) (by omega))

theorem pow2_exponent_zero : pow2_exponent 0 = none := rfl

/-- A number with a set bit is at least that power of two. -/
theorem two_pow_le_of_testBit {m j : Nat} (h : m.testBit j = true) :
    2 ^ j ≤ m := by
  have hd : m / 2 ^ j % 2 = 1 := by
    have := @Nat.testBit_to_div_mod j m
    rw [h] at this
    exact of_decide_eq_true this.symm
  have h1 : 1 ≤ m / 2 ^ j := by
    rcases Nat.eq_zero_or_pos (m / 2 ^ j) with h0 | h0
    · rw [h0] at hd; simp at hd
    · exact h0
  calc 2 ^ j = 2 ^ j * 1 := (Nat.mul_one _).symm
  _ ≤ 2 ^ j * (m / 2 ^ j) := Nat.mul_le_mul_left _ h1
  _ ≤ m := Nat.mul_div_le m (2 ^ j)

/-- A number below `2 ^ (i + 1)` whose bit `i` is set lies in
`[2 ^ i, 2 ^ (i + 1))`; conversely such numbers have bit `i` set. -/
theorem testBit_of_bounds {m i : Nat} (hlo : 2 ^ i ≤ m)
    (hhi : m < 2 ^ (i + 1)) : m.testBit i = true := by
  have hdiv : m / 2 ^ i = 1 := by
    refine Nat.div_eq_of_lt_le (by omega) ?_
    calc m < 2 ^ (i + 1) := hhi
    _ = 2 ^ i * 2 := Nat.pow_succ ..
    _ = (1 + 1) * 2 ^ i := by ring
  rw [Nat.testBit_to_div_mod, hdiv]
  rfl

/-- No set bit above `i` forces the number below `2 ^ (i + 1)`. -/
theorem lt_two_pow_of_highest {m i : Nat}
    (h : ∀ j, m.testBit j = true → j ≤ i) : m < 2 ^ (i + 1) := by
  by_contra hge
  push_neg at hge
  have hm : m ≠ 0 := by
    intro h0
    subst h0
    have : (0 : Nat) < 2 ^ (i + 1) := Nat.pow_pos (by omega)
    omega
  have hlog_ge : i + 1 ≤ m.log2 := by
    by_contra hlt
    push_neg at hlt
    have := (Nat.log2_lt hm).mp hlt
    omega
  have hbit : m.testBit m.log2 = true := by
    refine testBit_of_bounds (Nat.log2_self_le hm) ?_
    exact (Nat.log2_lt hm).mp (by omega)
  have := h m.log2 hbit
  omega

/-- The classic bit trick: `2 ^ i & (2 ^ i - 1) == 0`. -/
theorem land_two_pow_pred (i : Nat) : 2 ^ i &&& (2 ^ i - 1) = 0 := by
  refine Nat.eq_of_testBit_eq fun j => ?_
  rw [Nat.testBit_land, Nat.testBit_two_pow, Nat.testBit_two_pow_sub_one,
    Nat.zero_testBit]
  by_cases h : i = j <;> simp [h]

/-- Conversely, a nonzero number with `m & (m - 1) == 0` is a power of 2. -/
theorem pow_of_land_pred {m : Nat} (h0 : m ≠ 0) (h : m &&& (m - 1) = 0) :
    ∃ i, m = 2 ^ i := by
  refine ⟨m.log2, ?_⟩
  have hlo : 2 ^ m.log2 ≤ m := Nat.log2_self_le h0
  have hhi : m < 2 ^ (m.log2 + 1) := (Nat.log2_lt h0).mp (by omega)
  by_contra hne
  have hr : 2 ^ m.log2 + 1 ≤ m := by omega
  have hb1 : m.testBit m.log2 = true := testBit_of_bounds hlo hhi
  have hb2 : (m - 1).testBit m.log2 = true :=
    testBit_of_bounds (by omega) (by omega)
  have : (m &&& (m - 1)).testBit m.log2 = true := by
    rw [Nat.testBit_land, hb1, hb2]
    rfl
  rw [h, Nat.zero_testBit] at this
  exact Bool.false_ne_true this

/-- Denotation of the one-hot validity circuit built in `to_var`
(`mdd.py` lines 126-130): on an `n`-bit input word `m` it computes
`(m != 0) & ((m & (m - 1)) == 0)`.  The input is an `n`-bit bit-vector, so
an arbitrary natural is first truncated to its low `n` bits; for the `n`-bit
word the Python `tmp - 1` is two's-complement wrap-around subtraction, which
agrees with truncated `Nat` subtraction except at `m = 0`, where the first
conjunct already makes the whole expression false either way. -/
def onehotValid (n m : Nat) : Bool :=
  decide (m % 2 ^ n ≠ 0) && decide ((m % 2 ^ n) &&& (m % 2 ^ n - 1) = 0)

theorem onehotValid_iff_land {n m : Nat} (h : m < 2 ^ n) :
    onehotValid n m = true ↔ (m ≠ 0 ∧ m &&& (m - 1) = 0) := by
  simp [onehotValid, Nat.mod_eq_of_lt h]

theorem onehotValid_iff_pow {n m : Nat} (h : m < 2 ^ n) :
    onehotValid n m = true ↔ ∃ i, i < n ∧ m = 2 ^ i := by
  rw [onehotValid_iff_land h]
  constructor
  · rintro ⟨h0, hland⟩
    obtain ⟨i, rfl⟩ := pow_of_land_pred h0 hland
    refine ⟨i, ?_, rfl⟩
    exact (Nat.pow_lt_pow_iff_right (by omega)).mp h
  · rintro ⟨i, hi, rfl⟩
    exact ⟨by positivity, land_two_pow_pred i⟩

theorem onehotValid_two_pow {n i : Nat} (h : i < n) :
    onehotValid n (2 ^ i) = true :=
  (onehotValid_iff_pow (Nat.pow_lt_pow_right (by omega) h)).mpr ⟨i, h, rfl⟩

/-!
The data model of `mdd/mdd.py`: `Variable`, `Interface`, `DecisionDiagram`.
-/

/-- A multi-valued variable as built by `to_var` (`mdd.py` lines 110-136):
a named bit-vector signal together with the one-hot-encoded `domain`.  The
Python object stores three closures (`valid`, `encode`, `decode`) that all
capture `domain`; here `domain` is stored and the closures become the
functions `Variable.valid` / `Variable.encode` / `Variable.decode` below. -/
structure Variable (α : Type) where
  name : String
  domain : List α
deriving DecidableEq

variable {α : Type} [DecidableEq α]

/-- Bit width of the one-hot encoding (`Variable._encoding_size`, which for
`to_var` variables also equals `Variable.size()`, the model count of the
one-hot validity circuit): one bit per domain element. -/
def Variable.size (w : Variable α) : Nat := w.domain.length

/-- `encode = lambda val: 1 << domain.index(val)` (`mdd.py` line 134).
`List.indexOf` returns the index of the first occurrence, like Python
`list.index`.  (For a value outside the domain Python raises `ValueError`;
here `indexOf` returns `domain.length`, so the encoding fails the one-hot
validity check `Variable.valid` that every caller in `mdd.py` asserts
immediately afterwards — both model the same failure.) -/
def Variable.encode (w : Variable α) (v : α) : Nat :=
  1 <<< w.domain.indexOf v

/-- `decode = lambda val: domain[pow2_exponent(val)]` (`mdd.py` line 135).
`none` models the `AssertionError` from `pow2_exponent(0)` and the
`IndexError` from an out-of-range index. -/
def Variable.decode (w : Variable α) (m : Nat) : Option α :=
  (pow2_exponent m).bind fun i => w.domain.get? i

/-- Denotation of the variable's one-hot validity circuit
(`Variable.valid` in `mdd.py`, built by `to_var`) on an encoded word. -/
def Variable.valid (w : Variable α) (m : Nat) : Bool :=
  onehotValid w.size m

/-- `to_var(domain, name)` (`mdd.py` lines 110-136) for an explicit domain
sequence.  (The branch taking an existing `Variable` is a pure rename and
the `name=None` branch draws a fresh uuid; neither is needed here.) -/
def to_var (domain : List α) (name : String) : Variable α :=
  ⟨name, domain⟩

/-- The formula `a (name, i) = true for exactly the index i` over the `n`
bits of a signal: one disjunct of `onehotBF`. -/
def exactlyBit (name : String) (n i : Nat) : BF :=
  (List.range n).foldr
    (fun j acc =>
      BF.and (if j = i then BF.bit name j else BF.not (BF.bit name j)) acc)
    BF.tt

/-- The boolean function of the one-hot circuit `(tmp != 0) & ((tmp & (tmp
- 1)) == 0)` (`mdd.py` line 129), expressed as a bit-level formula: exactly
one of the `n` bits of `name` is set.  The BDD substrate is canonical, so
only this boolean function (not the circuit's gate structure) is
observable; `onehotBF_eval_eq_onehotValid` below certifies that it is the
function the circuit computes. -/
def onehotBF (name : String) (n : Nat) : BF :=
  (List.range n).foldr (fun i acc => BF.or (exactlyBit name n i) acc) BF.ff

theorem eval_foldr_and (l : List Nat) (f : Nat → BF)
    (a : (String × Nat) → Bool) :
    ((l.foldr (fun j acc => BF.and (f j) acc) BF.tt).eval a) =
      l.all (fun j => (f j).eval a) := by
  induction l with
  | nil => rfl
  | cons x l ih => simp [BF.eval, ih]

theorem eval_foldr_or (l : List Nat) (f : Nat → BF)
    (a : (String × Nat) → Bool) :
    ((l.foldr (fun j acc => BF.or (f j) acc) BF.ff).eval a) =
      l.any (fun j => (f j).eval a) := by
  induction l with
  | nil => rfl
  | cons x l ih => simp [BF.eval, ih]

theorem exactlyBit_eval (name : String) (n i : Nat)
    (a : (String × Nat) → Bool) :
    (exactlyBit name n i).eval a =
      (List.range n).all (fun j => if j = i then a (name, j) else !a (name, j)) := by
  rw [exactlyBit, eval_foldr_and]
  refine congrArg _ (funext fun j => ?_)
  by_cases h : j = i <;> simp [h, BF.eval]

theorem onehotBF_eval (name : String) (n : Nat) (a : (String × Nat) → Bool) :
    (onehotBF name n).eval a =
      (List.range n).any (fun i => (exactlyBit name n i).eval a) := by
  rw [onehotBF, eval_foldr_or]

theorem onehotBF_eval_of_onehot {name : String} {n i : Nat}
    (a : (String × Nat) → Bool) (hi : i < n)
    (h : ∀ j, j < n → a (name, j) = decide (j = i)) :
    (onehotBF name n).eval a = true := by
  rw [onehotBF_eval]
  refine List.any_eq_true.mpr ⟨i, List.mem_range.mpr hi, ?_⟩
  rw [exactlyBit_eval]
  refine List.all_eq_true.mpr fun j hj => ?_
  have hj' : j < n := List.mem_range.mp hj
  by_cases hji : j = i
  · subst hji; rw [if_pos rfl, h j hj']; simp
  · rw [if_neg hji, h j hj']; simp [hji]

/-- Certificate that `onehotBF` is the boolean function computed by the
one-hot circuit of `to_var`: under the bit assignment reading off the bits
of a word `m < 2 ^ n`, it evaluates to `onehotValid n m`. -/
theorem onehotBF_eval_eq_onehotValid {name : String} {n m : Nat}
    (hm : m < 2 ^ n) :
    (onehotBF name n).eval (fun b => m.testBit b.2) = onehotValid n m := by
  refine bool_eq_of_iff ?_
  rw [onehotBF_eval, onehotValid_iff_pow hm, List.any_eq_true]
  constructor
  · rintro ⟨i, hi, hall⟩
    have hi' : i < n := List.mem_range.mp hi
    rw [exactlyBit_eval] at hall
    refine ⟨i, hi', Nat.eq_of_testBit_eq fun j => ?_⟩
    by_cases hj : j < n
    · have := List.all_eq_true.mp hall j (List.mem_range.mpr hj)
      by_cases hji : j = i
      · subst hji
        simpa [Nat.testBit_two_pow] using this
      · have hij : ¬ i = j := fun hh => hji hh.symm
        rw [Nat.testBit_two_pow, decide_eq_false hij]
        simp only [if_neg hji] at this
        simpa using this
    · have h1 : m.testBit j = false :=
        Nat.testBit_eq_false_of_lt
          (lt_of_lt_of_le hm (Nat.pow_le_pow_right (by omega) (by omega)))
      have h2 : (2 ^ i).testBit j = false :=
        Nat.testBit_two_pow_of_ne (by omega)
      rw [h1, h2]
  · rintro ⟨i, hi, rfl⟩
    refine ⟨i, List.mem_range.mpr hi, ?_⟩
    rw [exactlyBit_eval]
    refine List.all_eq_true.mpr fun j hj => ?_
    by_cases hji : j = i
    · subst hji; simp [Nat.testBit_two_pow]
    · have hij : ¬ i = j := fun hh => hji hh.symm
      simp [hji, Nat.testBit_two_pow, hij]

/-- The `Interface` value object (`mdd.py` lines 148-226).  The Python
`_inputs` field is an insertion-ordered `name -> Variable` mapping; it is
modelled as the ordered list of its values (names are unique for every
interface the constructor accepts, see `mkInterface`).  `_valid` is the
optional extra validity constraint, `applied` the set of input names
already bound by partial evaluation (modelled as the list of names in the
order they were applied). -/
structure Interface (α : Type) where
  inputs : List (Variable α)
  output : Variable α
  applied : List String := []
  extraValid : Option BF := none
deriving DecidableEq

/-- `Interface.var(name)`: look `name` up among the inputs, falling back to
the output Variable (`mdd.py` lines 224-226: `self._inputs.get(name,
self.output)`). -/
def Interface.var (io : Interface α) (n : String) : Variable α :=
  (io.inputs.find? (fun w => w.name == n)).getD io.output

def Interface.inputNames (io : Interface α) : List String :=
  io.inputs.map Variable.name

/-- `Interface.valid()` (`mdd.py` lines 176-183): the left-associated
conjunction `reduce(&)` of the optional extra constraint followed by every
input's one-hot test.  Python's `reduce` over an empty sequence raises
`TypeError` (no inputs and no extra constraint), modelled by `none`.  The
`sink` composition only adds the output bits as don't-care inputs of the
circuit, which does not change the denoted boolean function. -/
def Interface.valid (io : Interface α) : Option BF :=
  match (match io.extraValid with
    | some e => e :: io.inputs.map (fun w => onehotBF w.name w.size)
    | none => io.inputs.map (fun w => onehotBF w.name w.size)) with
  | [] => none
  | t :: ts => some (ts.foldl BF.and t)

/-- A `DecisionDiagram` (`mdd.py` lines 229-322): an interface together
with the denotation of its BDD node.  The `__attrs_post_init__` check
compares the BDD *manager's* variable set with the interface's bit set;
the manager is out of scope here (§6 of the spec treats the substrate as
opaque), so that check is not modelled. -/
structure DecisionDiagram (α : Type) where
  interface : Interface α
  bdd : BF
deriving DecidableEq

/-- `MDD = DecisionDiagram` (`mdd.py` line 325). -/
abbrev MDD (α : Type) := DecisionDiagram α

/-- `Interface.constantly(output)` (`mdd.py` lines 185-194): encode the
value, assert it is one-hot valid (`none` on failure), and build
`output.expr()[index] & self.valid()`. -/
def Interface.constantly (io : Interface α) (v : α) : Option (MDD α) :=
  let encoded := io.output.encode v
  if io.output.valid encoded = true then
    match pow2_exponent encoded, io.valid with
    | some index, some vb =>
        some ⟨io, BF.and (BF.bit io.output.name index) vb⟩
    | _, _ => none
  else none

/-- `Interface.lift(bdd_or_aig)` (`mdd.py` lines 212-222): conjoin the
given formula with `self.valid()` and wrap it.  (The `order`/`manager`
plumbing only chooses BDD levels, which does not affect the denoted
function.) -/
def Interface.lift (io : Interface α) (f : BF) : Option (MDD α) :=
  io.valid.map fun vb => ⟨io, BF.and f vb⟩

/-- `bundle.blast(BV.encode_int(size, encoded, signed=False))` from
`DecisionDiagram.let` (`mdd.py` lines 263-266): the little-endian bits of
`encoded` assigned to the bits `name[0] .. name[size-1]`. -/
def blast (name : String) (size encoded : Nat) :
    List ((String × Nat) × Bool) :=
  (List.range size).map fun j => ((name, j), encoded.testBit j)

/-- The loop of `DecisionDiagram.let` (`mdd.py` lines 257-266): resolve
each supplied name to its Variable, encode the value, assert the encoding
is one-hot valid (`none` models the failed `assert` / the `ValueError`
from `encode`), and collect the blasted bit assignments. -/
def encodeVals (io : Interface α) : List (String × α) → Option (List ((String × Nat) × Bool))
  | [] => some []
  | (n, v) :: rest =>
      let w := io.var n
      let encoded := w.encode v
      if w.valid encoded = true then
        (encodeVals io rest).map fun vs => blast w.name w.size encoded ++ vs
      else none

/-- `DecisionDiagram.let(inputs)` (`mdd.py` lines 255-272): restrict the
formula on the blasted assignments, assert the result is not the `false`
node (`none` models the failed assert; by canonicity the BDD is the false
node exactly when the restricted function is unsatisfiable), and extend
`applied`.  (Lean reserves `let`, hence the name `letOpt`.) -/
def DecisionDiagram.letOpt (d : MDD α) (inputs : List (String × α)) :
    Option (MDD α) :=
  (encodeVals d.interface inputs).bind fun vals =>
    let b := BF.restrict vals d.bdd
    if b.satB = true then
      some ⟨{ d.interface with
                applied := d.interface.applied ++ inputs.map Prod.fst }, b⟩
    else none

/-- The tail of `DecisionDiagram.__call__` (`mdd.py` lines 277-285):
`assert bdd.dag_size == 2` means the restricted BDD is a single decision
node over one bit, i.e. by canonicity the function is a positive or
negative literal; `name_index(bdd.var)` recovers that bit, the asserts
require its signal to be the output with an index inside the encoding, and
the result is `decode(1 << idx)`.  `none` models any failed assert. -/
def evalOutput (out : Variable α) (b : BF) : Option α :=
  match (List.range out.size).find? (fun i =>
      BF.equiv b (BF.bit out.name i) || BF.equiv b (BF.not (BF.bit out.name i))) with
  | some i => out.decode (1 <<< i)
  | none => none

/-- `DecisionDiagram.__call__(inputs)` (`mdd.py` lines 274-285):
`let(inputs)` followed by decoding the surviving output literal. -/
def DecisionDiagram.call (d : MDD α) (inputs : List (String × α)) : Option α :=
  match d.letOpt inputs with
  | none => none
  | some d' => evalOutput d'.interface.output d'.bdd

/-- `DecisionDiagram.override(test, value)` for a `value` that is already a
`DecisionDiagram` (`mdd.py` lines 304-322): `((~test) | value) & (test |
self.bdd)`, keeping `self`'s interface.  (A raw py-aiger `test` is first
converted to a BDD, which leaves the denoted function unchanged.) -/
def DecisionDiagram.override (d : MDD α) (test : BF) (value : MDD α) : MDD α :=
  { d with bdd := BF.and (BF.or (BF.not test) value.bdd) (BF.or test d.bdd) }

/-- `DecisionDiagram.override(test, value)` for a bare codomain `value`:
the value is first coerced via `self.io.constantly(value)` (`mdd.py`
lines 313-314). -/
def DecisionDiagram.overrideVal (d : MDD α) (test : BF) (value : α) :
    Option (MDD α) :=
  (d.interface.constantly value).map fun c => d.override test c

/-- One step of building the Python dict `{var.name: var for var in vals}`:
a later variable with an already-present name overwrites the stored value
but keeps the first-insertion position. -/
def upsert (acc : List (Variable α)) (v : Variable α) : List (Variable α) :=
  match acc with
  | [] => [v]
  | w :: ws => if w.name = v.name then v :: ws else w :: upsert ws v

/-- `to_vars(vals)` (`mdd.py` lines 142-145) for an iterable of Variables:
the insertion-ordered dict `{var.name: var for var in vals}`, modelled as
its list of values.  (The `dict` argument form first converts each
`name -> domain` entry with `to_var`, then builds the same dict; its keys
are unique by construction.) -/
def to_vars (vals : List (Variable α)) : List (Variable α) :=
  vals.foldl upsert []

/-- Construction of an `Interface` (`mdd.py` lines 148-167): the `attrs`
converters run `to_vars` on the inputs, the `_valid` validator requires
the extra constraint to mention only declared input signals, and
`__attrs_post_init__` requires the input names plus the output name to be
pairwise distinct.  Any failure raises (`ValueError`), modelled by
`none`. -/
def mkInterface (inputs : List (Variable α)) (output : Variable α)
    (extra : Option BF) : Option (Interface α) :=
  let ins := to_vars inputs
  if (match extra with
      | none => true
      | some e => e.support.all fun b => (ins.map Variable.name).contains b.1) = true
  then
    if ((ins.map Variable.name) ++ [output.name]).Nodup then
      some ⟨ins, output, [], extra⟩
    else none
  else none

/-!
Admissible input assignments and the bit-level assignment they induce.
-/

/-- The bit set of the declared inputs: bits `w.name[j]`, `j < w.size`. -/
def Interface.inputBits (io : Interface α) : List (String × Nat) :=
  io.inputs.flatMap fun w => (List.range w.size).map fun j => (w.name, j)

/-- The blasted bit assignments produced by a successful
`DecisionDiagram.let` on the supplied inputs (see `encodeVals_eq_valsOf`). -/
def valsOf (io : Interface α) (xs : List (String × α)) :
    List ((String × Nat) × Bool) :=
  xs.flatMap fun p =>
    blast (io.var p.1).name (io.var p.1).size ((io.var p.1).encode p.2)

/-- The bit assignment induced by an input assignment (bits not covered by
the assignment read `false`; the claims only inspect covered bits). -/
def assignOf (io : Interface α) (xs : List (String × α)) :
    (String × Nat) → Bool :=
  fun b => ((valsOf io xs).lookup b).getD false

/-- The name-uniqueness invariant that `mkInterface` establishes: input
names are pairwise distinct and differ from the output name. -/
def NamesOk (io : Interface α) : Prop :=
  io.inputNames.Nodup ∧ io.output.name ∉ io.inputNames

/-- An admissible full input assignment: it maps every declared input name,
each exactly once, to a value of that input's domain. -/
def AdmissibleInput (io : Interface α) (xs : List (String × α)) : Prop :=
  (xs.map Prod.fst).Nodup ∧
    (∀ p ∈ xs, p.1 ∈ io.inputNames ∧ p.2 ∈ (io.var p.1).domain) ∧
    (∀ w ∈ io.inputs, w.name ∈ xs.map Prod.fst)

/-- When the interface carries an extra validity constraint, the input
assignment must satisfy it (the constraint is a formula over the declared
input bits); trivially true when there is no extra constraint. -/
def extraOk (io : Interface α) (xs : List (String × α)) : Bool :=
  match io.extraValid with
  | none => true
  | some e =>
      (e.support.all fun b => decide (b ∈ io.inputBits)) &&
        e.eval (assignOf io xs)

theorem find?_name_eq {l : List (Variable α)} {n : String}
    (h : n ∈ l.map Variable.name) :
    ∃ w, l.find? (fun w => w.name == n) = some w ∧ w.name = n := by
  induction l with
  | nil => simp at h
  | cons u l ih =>
      rcases hu : u.name == n with _ | _
      · have hn : n ∈ l.map Variable.name := by
          rcases List.mem_map.mp h with ⟨w, hw, hwn⟩
          rcases List.mem_cons.mp hw with rfl | hw'
          · exact absurd (beq_iff_eq.mpr hwn) (by simp [hu])
          · exact List.mem_map.mpr ⟨w, hw', hwn⟩
        obtain ⟨w, hfind, hwn⟩ := ih hn
        exact ⟨w, by simpa [List.find?, hu] using hfind, hwn⟩
      · exact ⟨u, by simp [List.find?, hu], eq_of_beq hu⟩

theorem var_of_mem_inputNames {io : Interface α} {n : String}
    (h : n ∈ io.inputNames) :
    io.var n ∈ io.inputs ∧ (io.var n).name = n := by
  obtain ⟨w, hfind, hwn⟩ := find?_name_eq h
  have hw : w ∈ io.inputs := List.mem_of_find?_eq_some hfind
  rw [Interface.var, hfind]
  exact ⟨hw, hwn⟩

theorem find?_name_unique {l : List (Variable α)}
    (hno : (l.map Variable.name).Nodup) {w : Variable α} (hw : w ∈ l) :
    l.find? (fun u => u.name == w.name) = some w := by
  induction l with
  | nil => simp at hw
  | cons u l ih =>
      rcases List.mem_cons.mp hw with rfl | hw'
      · simp [List.find?]
      · rcases hu : u.name == w.name with _ | _
        · have hno' : (l.map Variable.name).Nodup :=
            (List.nodup_cons.mp hno).2
          simpa [List.find?, hu] using ih hno' hw'
        · exfalso
          have : u.name ∉ l.map Variable.name :=
            (List.nodup_cons.mp hno).1
          exact this (eq_of_beq hu ▸ List.mem_map.mpr ⟨w, hw', rfl⟩)

theorem var_eq_of_mem {io : Interface α} (hno : io.inputNames.Nodup)
    {w : Variable α} (hw : w ∈ io.inputs) : io.var w.name = w := by
  rw [Interface.var, find?_name_unique hno hw]
  rfl

theorem lookup_blast (name n' : String) (sz e j : Nat) :
    (blast name sz e).lookup (n', j) =
      if n' = name ∧ j < sz then some (e.testBit j) else none := by
  induction sz with
  | zero => simp [blast]
  | succ sz ih =>
      rw [blast, List.range_succ, List.map_append]
      rw [lookup_append]
      rw [show ((List.range sz).map fun i => ((name, i), e.testBit i)) =
        blast name sz e from rfl, ih]
      by_cases h1 : n' = name ∧ j < sz
      · simp [h1, Option.orElse, h1.2.trans (Nat.lt_succ_self sz)]
      · by_cases h2 : n' = name ∧ j = sz
        · obtain ⟨rfl, rfl⟩ := h2
          simp [h1, Option.orElse, List.lookup]
        · have : ¬(n' = name ∧ j < sz + 1) := by
            rintro ⟨rfl, hj⟩
            rcases Nat.lt_succ_iff_lt_or_eq.mp hj with hj' | rfl
            · exact h1 ⟨rfl, hj'⟩
            · exact h2 ⟨rfl, rfl⟩
          have hne : ((n', j) == ((name : String), sz)) = false := by
            refine beq_false_of_ne fun hc => ?_
            obtain ⟨rfl, rfl⟩ := Prod.mk.injEq .. ▸ hc
            exact this ⟨(Prod.ext_iff.mp hc).1, by
              have := (Prod.ext_iff.mp hc).2
              omega⟩
          simp [h1, this, Option.orElse, List.lookup, hne]

theorem lookup_valsOf_not_input {io : Interface α} {xs : List (String × α)}
    (hkeys : ∀ p ∈ xs, p.1 ∈ io.inputNames) {n' : String} {j : Nat}
    (hn' : n' ∉ io.inputNames) :
    (valsOf io xs).lookup (n', j) = none := by
  induction xs with
  | nil => simp [valsOf]
  | cons p rest ih =>
      have hp := hkeys p (List.mem_cons_self ..)
      have hname : (io.var p.1).name = p.1 := (var_of_mem_inputNames hp).2
      rw [valsOf, List.flatMap_cons, lookup_append]
      rw [show (rest.flatMap fun p =>
        blast (io.var p.1).name (io.var p.1).size ((io.var p.1).encode p.2)) =
        valsOf io rest from rfl]
      rw [lookup_blast, hname]
      have hne : ¬(n' = p.1 ∧ j < (io.var p.1).size) := by
        rintro ⟨rfl, _⟩
        exact hn' hp
      rw [if_neg hne]
      simpa [Option.orElse] using
        ih fun q hq => hkeys q (List.mem_cons_of_mem _ hq)

theorem lookup_valsOf_input {io : Interface α} {xs : List (String × α)}
    (hkeys : ∀ p ∈ xs, p.1 ∈ io.inputNames)
    (hnodup : (xs.map Prod.fst).Nodup)
    {n : String} {v : α} (hmem : (n, v) ∈ xs)
    {j : Nat} (hj : j < (io.var n).size) :
    (valsOf io xs).lookup ((io.var n).name, j) =
      some (((io.var n).encode v).testBit j) := by
  induction xs with
  | nil => simp at hmem
  | cons p rest ih =>
      have hpn : (io.var p.1).name = p.1 :=
        (var_of_mem_inputNames (hkeys p (List.mem_cons_self ..))).2
      rw [valsOf, List.flatMap_cons, lookup_append]
      rw [show (rest.flatMap fun p =>
        blast (io.var p.1).name (io.var p.1).size ((io.var p.1).encode p.2)) =
        valsOf io rest from rfl]
      rcases List.mem_cons.mp hmem with heq | hmem'
      · rw [← heq]
        rw [lookup_blast]
        simp [hj, Option.orElse]
      · have hn : (io.var n).name = n :=
          (var_of_mem_inputNames
            (hkeys (n, v) (List.mem_cons_of_mem _ hmem'))).2
        have hne : n ≠ p.1 := by
          intro hc
          have h1 : p.1 ∉ rest.map Prod.fst := (List.nodup_cons.mp hnodup).1
          exact h1 (hc ▸ List.mem_map.mpr ⟨(n, v), hmem', rfl⟩)
        rw [lookup_blast, hpn, hn]
        rw [if_neg (by rintro ⟨hc, _⟩; exact hne hc)]
        have := ih (fun q hq => hkeys q (List.mem_cons_of_mem _ hq))
          (List.nodup_cons.mp hnodup).2 hmem'
        rw [hn] at this
        simpa [Option.orElse] using this

theorem mem_inputBits_iff {io : Interface α} {b : String × Nat} :
    b ∈ io.inputBits ↔
      ∃ w ∈ io.inputs, b.1 = w.name ∧ b.2 < w.size := by
  rw [Interface.inputBits]
  simp only [List.mem_flatMap, List.mem_map, List.mem_range]
  constructor
  · rintro ⟨w, hw, j, hj, rfl⟩
    exact ⟨w, hw, rfl, hj⟩
  · rintro ⟨w, hw, h1, h2⟩
    exact ⟨w, hw, b.2, h2, by rw [← h1]⟩

theorem lookup_valsOf_inputBit {io : Interface α} {xs : List (String × α)}
    (hno : io.inputNames.Nodup) (hadm : AdmissibleInput io xs)
    {b : String × Nat} (hb : b ∈ io.inputBits) :
    ∃ x, (valsOf io xs).lookup b = some x := by
  obtain ⟨w, hw, hb1, hb2⟩ := mem_inputBits_iff.mp hb
  obtain ⟨hnodup, hkeys, hcover⟩ := hadm
  obtain ⟨q, hq, hqn⟩ := List.mem_map.mp (hcover w hw)
  have hvar : io.var w.name = w := var_eq_of_mem hno hw
  obtain ⟨n, v⟩ := q
  simp only at hqn
  subst hqn
  refine ⟨((io.var w.name).encode v).testBit b.2, ?_⟩
  have hblt : b.2 < (io.var w.name).size := by rw [hvar]; exact hb2
  have := lookup_valsOf_input (fun p hp => (hkeys p hp).1) hnodup hq hblt
  rw [hvar] at this ⊢
  rw [← this]
  congr 1
  rw [← hb1]

/-!
Core lemmas about `constantly`, `let` and `__call__`.
-/

theorem eval_foldl_and (t : BF) (ts : List BF) (a : (String × Nat) → Bool) :
    ((ts.foldl BF.and t).eval a) = (t.eval a && ts.all fun s => s.eval a) := by
  induction ts generalizing t with
  | nil => simp
  | cons s ts ih => simp [ih, BF.eval, Bool.and_assoc]

theorem valid_encode_of_mem_domain {w : Variable α} {v : α}
    (hv : v ∈ w.domain) : w.valid (w.encode v) = true := by
  rw [Variable.valid, Variable.encode, Nat.one_shiftLeft]
  exact onehotValid_two_pow (List.indexOf_lt_length.mpr hv)

theorem encodeVals_eq_valsOf {io : Interface α} {xs : List (String × α)}
    (h : ∀ p ∈ xs, (io.var p.1).valid ((io.var p.1).encode p.2) = true) :
    encodeVals io xs = some (valsOf io xs) := by
  induction xs with
  | nil => rfl
  | cons p rest ih =>
      obtain ⟨n, v⟩ := p
      rw [encodeVals, if_pos (h (n, v) (List.mem_cons_self ..))]
      rw [ih fun q hq => h q (List.mem_cons_of_mem _ hq)]
      rfl

theorem interface_valid_isSome {io : Interface α} (hne : io.inputs ≠ []) :
    ∃ vb, io.valid = some vb := by
  rw [Interface.valid]
  cases hex : io.extraValid with
  | some e => exact ⟨_, rfl⟩
  | none =>
      cases hi : io.inputs with
      | nil => exact absurd hi hne
      | cons w rest => exact ⟨_, rfl⟩

theorem valid_eval_true {io : Interface α} {vb : BF} (hvb : io.valid = some vb)
    (a : (String × Nat) → Bool)
    (hone : ∀ w ∈ io.inputs, (onehotBF w.name w.size).eval a = true)
    (hex : ∀ e, io.extraValid = some e → e.eval a = true) :
    vb.eval a = true := by
  rw [Interface.valid] at hvb
  cases hextra : io.extraValid with
  | some e =>
      rw [hextra] at hvb
      injection hvb with hvb
      rw [← hvb, eval_foldl_and, hex e hextra]
      refine List.all_eq_true.mpr fun s hs => ?_
      obtain ⟨w, hw, rfl⟩ := List.mem_map.mp hs
      exact hone w hw
  | none =>
      rw [hextra] at hvb
      cases hi : io.inputs with
      | nil => rw [hi] at hvb; simp at hvb
      | cons w rest =>
          rw [hi] at hvb
          simp only [List.map_cons] at hvb
          injection hvb with hvb
          rw [← hvb, eval_foldl_and, hone w (hi ▸ List.mem_cons_self ..)]
          refine List.all_eq_true.mpr fun s hs => ?_
          obtain ⟨u, hu, rfl⟩ := List.mem_map.mp hs
          exact hone u (hi ▸ List.mem_cons_of_mem _ hu)

theorem patch_valsOf_not_input {io : Interface α} {xs : List (String × α)}
    (hkeys : ∀ p ∈ xs, p.1 ∈ io.inputNames) {n' : String} {j : Nat}
    (hn' : n' ∉ io.inputNames) (a : (String × Nat) → Bool) :
    patch (valsOf io xs) a (n', j) = a (n', j) := by
  rw [patch, lookup_valsOf_not_input hkeys hn']
  rfl

theorem onehot_eval_patch {io : Interface α} {xs : List (String × α)}
    (hno : io.inputNames.Nodup) (hadm : AdmissibleInput io xs)
    {w : Variable α} (hw : w ∈ io.inputs) (a : (String × Nat) → Bool) :
    (onehotBF w.name w.size).eval (patch (valsOf io xs) a) = true := by
  obtain ⟨hnodup, hkeys, hcover⟩ := hadm
  obtain ⟨q, hq, hqn⟩ := List.mem_map.mp (hcover w hw)
  obtain ⟨n, v⟩ := q
  simp only at hqn
  subst hqn
  have hvar : io.var w.name = w := var_eq_of_mem hno hw
  have hv : v ∈ w.domain := by
    have := (hkeys (w.name, v) hq).2
    rwa [hvar] at this
  have hi : w.domain.indexOf v < w.size := List.indexOf_lt_length.mpr hv
  refine onehotBF_eval_of_onehot _ hi fun j hj => ?_
  have hjlt : j < (io.var w.name).size := by rw [hvar]; exact hj
  have hlook := lookup_valsOf_input (fun p hp => (hkeys p hp).1) hnodup hq hjlt
  rw [hvar] at hlook
  rw [patch, hlook]
  rw [Variable.encode, Nat.one_shiftLeft, Nat.testBit_two_pow]
  simp [Option.getD, eq_comm]

theorem eval_patch_eq_assignOf {io : Interface α} {xs : List (String × α)}
    (hno : io.inputNames.Nodup) (hadm : AdmissibleInput io xs) {e : BF}
    (hsup : ∀ b ∈ e.support, b ∈ io.inputBits) (a : (String × Nat) → Bool) :
    e.eval (patch (valsOf io xs) a) = e.eval (assignOf io xs) := by
  refine eval_eq_of_agree fun b hb => ?_
  obtain ⟨x, hx⟩ := lookup_valsOf_inputBit hno hadm (hsup b hb)
  rw [patch, assignOf, hx]
  rfl

theorem find?_of_unique {β : Type} {l : List β} {p : β → Bool} {x : β}
    (hx : x ∈ l) (hpx : p x = true)
    (huniq : ∀ y ∈ l, p y = true → y = x) : l.find? p = some x := by
  induction l with
  | nil => simp at hx
  | cons u l ih =>
      rcases hu : p u with _ | _
      · have hx' : x ∈ l := by
          rcases List.mem_cons.mp hx with rfl | h
          · rw [hpx] at hu; exact absurd hu (by simp)
          · exact h
        rw [List.find?, hu]
        exact ih hx' fun y hy hpy => huniq y (List.mem_cons_of_mem _ hy) hpy
      · rw [List.find?, hu]
        rw [huniq u (List.mem_cons_self ..) hu]

theorem decode_shift_indexOf {w : Variable α} {v : α} (hv : v ∈ w.domain) :
    w.decode (1 <<< w.domain.indexOf v) = some v := by
  rw [Variable.decode, Nat.one_shiftLeft, pow2_exponent_two_pow]
  have h := List.indexOf_lt_length.mpr hv
  rw [Option.bind, List.get?_eq_getElem?, List.getElem?_eq_getElem h,
    List.getElem_indexOf h]

theorem evalOutput_of_literal {out : Variable α} {b : BF} {iv : Nat}
    (hiv : iv < out.size) (hb : ∀ a, b.eval a = a (out.name, iv)) :
    evalOutput out b = out.decode (1 <<< iv) := by
  rw [evalOutput]
  have hpred : (BF.equiv b (BF.bit out.name iv) ||
      BF.equiv b (BF.not (BF.bit out.name iv))) = true := by
    have : BF.equiv b (BF.bit out.name iv) = true :=
      equiv_iff.mpr fun a => by rw [hb]; rfl
    rw [this]; rfl
  have huniq : ∀ i ∈ List.range out.size,
      (BF.equiv b (BF.bit out.name i) ||
        BF.equiv b (BF.not (BF.bit out.name i))) = true → i = iv := by
    intro i _ hi
    rcases Bool.or_eq_true_iff.mp hi with h | h
    · have h' := equiv_iff.mp h
      by_contra hne
      have hcontra := (hb (fun c => c == (out.name, iv))).symm.trans
        (h' (fun c => c == (out.name, iv)))
      simp only [BF.eval] at hcontra
      rw [beq_self_eq_true] at hcontra
      have hpairne : ((out.name : String), i) ≠ (out.name, iv) := by
        intro hc
        exact hne (Prod.ext_iff.mp hc).2
      rw [beq_false_of_ne hpairne] at hcontra
      exact absurd hcontra (by simp)
    · have h' := equiv_iff.mp h
      exfalso
      have := (hb (fun _ => false)).symm.trans (h' (fun _ => false))
      simp [BF.eval] at this
  rw [find?_of_unique (List.mem_range.mpr hiv) hpred huniq]

theorem letOpt_none {io : Interface α} {b : BF} {xs : List (String × α)}
    (h : encodeVals io xs = none) :
    DecisionDiagram.letOpt ⟨io, b⟩ xs = none := by
  rw [DecisionDiagram.letOpt, h]
  rfl

theorem letOpt_some_sat {io : Interface α} {b : BF} {xs : List (String × α)}
    {vals : List ((String × Nat) × Bool)}
    (h : encodeVals io xs = some vals)
    (hs : (BF.restrict vals b).satB = true) :
    DecisionDiagram.letOpt ⟨io, b⟩ xs =
      some ⟨{ io with applied := io.applied ++ xs.map Prod.fst },
        BF.restrict vals b⟩ := by
  rw [DecisionDiagram.letOpt, h]
  simp only [Option.some_bind]
  rw [if_pos hs]

theorem letOpt_some_unsat {io : Interface α} {b : BF} {xs : List (String × α)}
    {vals : List ((String × Nat) × Bool)}
    (h : encodeVals io xs = some vals)
    (hs : (BF.restrict vals b).satB = false) :
    DecisionDiagram.letOpt ⟨io, b⟩ xs = none := by
  rw [DecisionDiagram.letOpt, h]
  simp only [Option.some_bind]
  rw [if_neg (by rw [hs]; exact Bool.false_ne_true)]

theorem call_of_letOpt_none {d : MDD α} {xs : List (String × α)}
    (h : d.letOpt xs = none) : d.call xs = none := by
  rw [DecisionDiagram.call, h]

theorem call_of_letOpt_some {d d' : MDD α} {xs : List (String × α)}
    (h : d.letOpt xs = some d') :
    d.call xs = evalOutput d'.interface.output d'.bdd := by
  rw [DecisionDiagram.call, h]

/-- The core of the evaluation claims: under the admissibility hypotheses,
`Interface.constantly(v)` succeeds and its full evaluation returns `v`. -/
theorem constantly_call_core {io : Interface α} (hno : NamesOk io)
    (hne : io.inputs ≠ []) {v : α} (hv : v ∈ io.output.domain)
    {xs : List (String × α)} (hadm : AdmissibleInput io xs)
    (hex : extraOk io xs = true) :
    ∃ c, io.constantly v = some c ∧ c.interface = io ∧ c.call xs = some v := by
  obtain ⟨vb, hvb⟩ := interface_valid_isSome hne
  have hvalidv : io.output.valid (io.output.encode v) = true :=
    valid_encode_of_mem_domain hv
  have hiv : io.output.domain.indexOf v < io.output.size :=
    List.indexOf_lt_length.mpr hv
  have hexp : pow2_exponent (io.output.encode v) =
      some (io.output.domain.indexOf v) := by
    rw [Variable.encode, Nat.one_shiftLeft, pow2_exponent_two_pow]
  set iv := io.output.domain.indexOf v with hiv_def
  refine ⟨⟨io, BF.and (BF.bit io.output.name iv) vb⟩, ?_, rfl, ?_⟩
  · rw [Interface.constantly]
    simp only [hvalidv, if_pos, hexp, hvb]
  · -- Evaluate the resulting diagram on `xs`.
    have hkeys : ∀ p ∈ xs, p.1 ∈ io.inputNames := fun p hp =>
      (hadm.2.1 p hp).1
    have hvalid_each : ∀ p ∈ xs,
        (io.var p.1).valid ((io.var p.1).encode p.2) = true := fun p hp =>
      valid_encode_of_mem_domain (hadm.2.1 p hp).2
    have henc : encodeVals io xs = some (valsOf io xs) :=
      encodeVals_eq_valsOf hvalid_each
    -- The restricted formula is the positive output literal `out[iv]`.
    have hres : ∀ a, (BF.restrict (valsOf io xs)
        (BF.and (BF.bit io.output.name iv) vb)).eval a =
        a (io.output.name, iv) := by
      intro a
      rw [eval_restrict]
      have h1 : (BF.and (BF.bit io.output.name iv) vb).eval
          (patch (valsOf io xs) a) =
          (patch (valsOf io xs) a (io.output.name, iv) &&
            vb.eval (patch (valsOf io xs) a)) := rfl
      rw [h1, patch_valsOf_not_input hkeys hno.2]
      rw [valid_eval_true hvb _ (fun w hw => onehot_eval_patch hno.1 hadm hw a)
        (fun e he => ?_), Bool.and_true]
      -- The extra validity constraint holds under the patched assignment.
      rw [extraOk, he] at hex
      obtain ⟨hsup, heval⟩ := Bool.and_eq_true_iff.mp hex
      have hsup' : ∀ b ∈ e.support, b ∈ io.inputBits := fun b hb =>
        of_decide_eq_true (List.all_eq_true.mp hsup b hb)
      rw [eval_patch_eq_assignOf hno.1 hadm hsup' a]
      exact heval
    have hsat : (BF.restrict (valsOf io xs)
        (BF.and (BF.bit io.output.name iv) vb)).satB = true :=
      satB_iff.mpr ⟨fun _ => true, by rw [hres]⟩
    rw [call_of_letOpt_some (letOpt_some_sat henc hsat)]
    show evalOutput io.output
        (BF.restrict (valsOf io xs) (BF.and (BF.bit io.output.name iv) vb)) =
      some v
    rw [evalOutput_of_literal hiv hres, hiv_def]
    exact decode_shift_indexOf hv

theorem evalOutput_congr {out : Variable α} {b₁ b₂ : BF}
    (h : ∀ a, b₁.eval a = b₂.eval a) :
    evalOutput out b₁ = evalOutput out b₂ := by
  rw [evalOutput, evalOutput]
  have hpred : (fun i => BF.equiv b₁ (BF.bit out.name i) ||
      BF.equiv b₁ (BF.not (BF.bit out.name i))) =
      (fun i => BF.equiv b₂ (BF.bit out.name i) ||
        BF.equiv b₂ (BF.not (BF.bit out.name i))) := by
    funext i
    rw [equiv_congr_left h, equiv_congr_left h]
  rw [hpred]

theorem encodeVals_some_eq {io : Interface α} {xs : List (String × α)}
    {vals : List ((String × Nat) × Bool)}
    (h : encodeVals io xs = some vals) : vals = valsOf io xs := by
  induction xs generalizing vals with
  | nil =>
      simp only [encodeVals] at h
      injection h with h
      rw [← h]; rfl
  | cons p rest ih =>
      obtain ⟨n, v⟩ := p
      rw [encodeVals] at h
      by_cases hvalid : (io.var n).valid ((io.var n).encode v) = true
      · rw [if_pos hvalid] at h
        cases hrest : encodeVals io rest with
        | none => rw [hrest] at h; simp at h
        | some vs =>
            rw [hrest] at h
            simp only [Option.map_some'] at h
            injection h with h
            rw [← h, ih hrest]
            rfl
      · rw [if_neg hvalid] at h
        simp at h

theorem call_congr_patched {io : Interface α} {b₁ b₂ : BF}
    (xs : List (String × α))
    (h : ∀ a, b₁.eval (patch (valsOf io xs) a) =
      b₂.eval (patch (valsOf io xs) a)) :
    DecisionDiagram.call ⟨io, b₁⟩ xs = DecisionDiagram.call ⟨io, b₂⟩ xs := by
  cases henc : encodeVals io xs with
  | none =>
      rw [call_of_letOpt_none (letOpt_none henc),
        call_of_letOpt_none (letOpt_none henc)]
  | some vals =>
      have hveq : vals = valsOf io xs := encodeVals_some_eq henc
      have hres : ∀ a, (BF.restrict vals b₁).eval a =
          (BF.restrict vals b₂).eval a := by
        intro a
        rw [eval_restrict, eval_restrict, hveq]
        exact h a
      rcases hs : (BF.restrict vals b₂).satB with _ | _
      · rw [call_of_letOpt_none (letOpt_some_unsat henc
          ((satB_congr hres).trans hs)),
          call_of_letOpt_none (letOpt_some_unsat henc hs)]
      · rw [call_of_letOpt_some (letOpt_some_sat henc
          ((satB_congr hres).trans hs)),
          call_of_letOpt_some (letOpt_some_sat henc hs)]
        exact evalOutput_congr hres

theorem satB_restrict_false {σ : List ((String × Nat) × Bool)} {r : BF}
    (h : r.satB = false) : (BF.restrict σ r).satB = false := by
  rcases hx : (BF.restrict σ r).satB with _ | _
  · rfl
  · obtain ⟨a, ha⟩ := satB_iff.mp hx
    rw [eval_restrict] at ha
    have ht : r.satB = true := satB_iff.mpr ⟨_, ha⟩
    rw [h] at ht
    exact absurd ht (by simp)

theorem encodeVals_append {io : Interface α} (p q : List (String × α)) :
    encodeVals io (p ++ q) =
      (encodeVals io p).bind fun a => (encodeVals io q).map fun b => a ++ b := by
  induction p with
  | nil =>
      simp only [List.nil_append, encodeVals, Option.bind]
      cases encodeVals io q <;> simp
  | cons x rest ih =>
      obtain ⟨n, v⟩ := x
      rw [List.cons_append, encodeVals, encodeVals]
      by_cases hvalid : (io.var n).valid ((io.var n).encode v) = true
      · rw [if_pos hvalid, if_pos hvalid, ih]
        cases encodeVals io rest with
        | none => rfl
        | some a =>
            cases encodeVals io q with
            | none => rfl
            | some b => simp [List.append_assoc]
      · rw [if_neg hvalid, if_neg hvalid]
        rfl

theorem encodeVals_applied_irrel {io : Interface α} (s : List String)
    (xs : List (String × α)) :
    encodeVals { io with applied := s } xs = encodeVals io xs := by
  induction xs with
  | nil => rfl
  | cons x rest ih =>
      obtain ⟨n, v⟩ := x
      rw [encodeVals, encodeVals, ih]
      rfl

/-- Core of the override claim: fully evaluating
`((¬ test) ∨ value) ∧ (test ∨ self)` on an admissible full input follows
`value` when `test` holds on the induced bit assignment and `self`
otherwise. -/
theorem override_call_core {io : Interface α} (hno : NamesOk io)
    {xs : List (String × α)} (hadm : AdmissibleInput io xs) {t : BF}
    (hsup : ∀ b ∈ t.support, b ∈ io.inputBits) (b v : BF) :
    DecisionDiagram.call ⟨io, BF.and (BF.or (BF.not t) v) (BF.or t b)⟩ xs =
      if t.eval (assignOf io xs) = true then
        DecisionDiagram.call ⟨io, v⟩ xs
      else DecisionDiagram.call ⟨io, b⟩ xs := by
  have hpatch : ∀ a, t.eval (patch (valsOf io xs) a) =
      t.eval (assignOf io xs) := fun a =>
    eval_patch_eq_assignOf hno.1 hadm hsup a
  rcases htv : t.eval (assignOf io xs) with _ | _
  · simp only [Bool.false_eq_true, if_false]
    refine call_congr_patched xs fun a => ?_
    simp [BF.eval, hpatch a, htv]
  · simp only [if_pos]
    refine call_congr_patched xs fun a => ?_
    simp [BF.eval, hpatch a, htv]

/-- Core of the partial-application claim: `let` then `call` equals `call`
on the concatenated assignment. -/
theorem let_call_append (d : MDD α) (p q : List (String × α)) :
    (d.letOpt p).bind (fun d' => d'.call q) = d.call (p ++ q) := by
  obtain ⟨io, b⟩ := d
  cases hp : encodeVals io p with
  | none =>
      rw [letOpt_none hp, Option.bind,
        call_of_letOpt_none (letOpt_none (by rw [encodeVals_append, hp]; rfl))]
  | some valsP =>
      rcases hsatp : (BF.restrict valsP b).satB with _ | _
      · -- The intermediate restriction is already unsatisfiable.
        rw [letOpt_some_unsat hp hsatp, Option.bind]
        cases hq : encodeVals io q with
        | none =>
            rw [call_of_letOpt_none (letOpt_none
              (by rw [encodeVals_append, hp, hq]; rfl))]
        | some valsQ =>
            have hpq : encodeVals io (p ++ q) = some (valsP ++ valsQ) := by
              rw [encodeVals_append, hp, hq]
              rfl
            rw [call_of_letOpt_none (letOpt_some_unsat hpq
              (by rw [← restrict_restrict]; exact satB_restrict_false hsatp))]
      · rw [letOpt_some_sat hp hsatp, Option.bind]
        cases hq : encodeVals io q with
        | none =>
            rw [call_of_letOpt_none (letOpt_none (by
              rw [encodeVals_applied_irrel]
              exact hq)),
              call_of_letOpt_none (letOpt_none
                (by rw [encodeVals_append, hp, hq]; rfl))]
        | some valsQ =>
            have hpq : encodeVals io (p ++ q) = some (valsP ++ valsQ) := by
              rw [encodeVals_append, hp, hq]
              rfl
            have hq' : encodeVals
                { io with applied := io.applied ++ p.map Prod.fst } q =
                some valsQ := by
              rw [encodeVals_applied_irrel]
              exact hq
            rcases hsat2 : (BF.restrict (valsP ++ valsQ) b).satB with _ | _
            · rw [call_of_letOpt_none (letOpt_some_unsat hq' (by
                rw [restrict_restrict]
                exact hsat2)),
                call_of_letOpt_none (letOpt_some_unsat hpq hsat2)]
            · rw [call_of_letOpt_some (letOpt_some_sat hq' (by
                rw [restrict_restrict]
                exact hsat2)),
                call_of_letOpt_some (letOpt_some_sat hpq hsat2)]
              rw [restrict_restrict]

instance (io : Interface α) : Decidable (NamesOk io) := by
  unfold NamesOk
  infer_instance

instance (io : Interface α) (xs : List (String × α)) :
    Decidable (AdmissibleInput io xs) := by
  unfold AdmissibleInput
  infer_instance

/-!
The graph exporter `mdd/nx.py`.
-/

/-- A directed graph with edge labels, standing in for the `networkx`
`DiGraph` produced by the exporter.  The spec (§1, §6) treats the graph
library as a plain output container, so only what the claims inspect is
kept: the node list (in insertion order, which is what networkx's default
relabelling enumerates) and the labelled edge list. -/
structure Digraph (ν ε : Type) where
  nodes : List ν
  edges : List (ν × ν × ε)
deriving DecidableEq

/-- `nx.convert_node_labels_to_integers`, applied unconditionally at
`nx.py` line 68: relabel the nodes `0, 1, ...` following the graph's node
order and remap the edge endpoints accordingly. -/
def convert_node_labels_to_integers {ν ε : Type} [DecidableEq ν]
    (g : Digraph ν ε) : Digraph Nat ε :=
  ⟨List.range g.nodes.length,
    g.edges.map fun e => (g.nodes.indexOf e.1, g.nodes.indexOf e.2.1, e.2.2)⟩

/-- `solutions(var, guard)` (`nx.py` lines 82-93): assert the guard's BDD
is not the `true` node (the `"BDD not reduced?!"` assert), then enumerate
its models over the variable's bits (`pick_iter` with the guard circuit's
inputs as care variables — a py-aiger atom declares the variable's full
bundle, so the care set is all `var.size` bits), unblast each model to an
integer and decode it.  `none` models a raised exception (the assert, or a
`decode` failure); the yielded value set is represented as the list of
decoded values in increasing model order. -/
def solutions (w : Variable α) (guard : BF) : Option (List α) :=
  if BF.equiv guard BF.tt = true then none
  else
    ((List.range (2 ^ w.size)).filter fun m =>
        guard.eval fun b => if b.1 = w.name then m.testBit b.2 else false).mapM
      w.decode

/-- `concrete_graph(func, graph)` (`nx.py` lines 72-79): replace every
edge guard by the set of domain values of the edge's variable satisfying
it.  The `assert len(guard.inputs) == 1` requires the guard circuit to
range over exactly one signal, whose name `fn.first(guard.inputs)` is then
resolved through `interface.var`; in the embedding the signal names of the
formula's support play that role. -/
def concrete_graph (io : Interface α) (g : Digraph Nat BF) :
    Option (Digraph Nat (List α)) :=
  (g.edges.mapM fun (e : Nat × Nat × BF) =>
      match (e.2.2.support.map Prod.fst).dedup with
      | [n] => (solutions (io.var n) e.2.2).map fun s => (e.1, e.2.1, s)
      | _ => none).map
    fun es => ⟨g.nodes, es⟩

/-- The tail of `to_nx` (`nx.py` lines 67-69), taking as input the
variable-level graph `g` assembled by the depth-first traversal of lines
40-66 (the traversal itself, through `bdd2dfa`, is upstream of what the
export-shape claims inspect): the graph is unconditionally reindexed by
`convert_node_labels_to_integers`, then returned with its symbolic guards
or passed through `concrete_graph`.  `to_nx`'s only parameters are
`symbolic_edges` and `order`; `order` merely selects the BDD level order
used by the traversal and plays no role in this tail. -/
def to_nx_export {ν : Type} [DecidableEq ν] (io : Interface α)
    (g : Digraph ν BF) (symbolic_edges : Bool) :
    Option (Digraph Nat (BF ⊕ List α)) :=
  if symbolic_edges then
    some ⟨(convert_node_labels_to_integers g).nodes,
      (convert_node_labels_to_integers g).edges.map
        fun e => (e.1, e.2.1, Sum.inl e.2.2)⟩
  else
    (concrete_graph io (convert_node_labels_to_integers g)).map fun h =>
      ⟨h.nodes, h.edges.map fun e => (e.1, e.2.1, Sum.inr e.2.2)⟩

theorem concrete_graph_nodes {io : Interface α} {g : Digraph Nat BF}
    {h : Digraph Nat (List α)} (hcg : concrete_graph io g = some h) :
    h.nodes = g.nodes := by
  rw [concrete_graph] at hcg
  obtain ⟨es, _, hfe⟩ := Option.map_eq_some'.mp hcg
  rw [← hfe]

/-!
The claims.
-/

/-- The spec §8 round-trip interface: inputs `x:[1,2,3]`, `y:[6,5]`,
`z:[7,9,8]`, output `[-1,0]`; used as a concrete witness interface. -/
def ioRT : Interface Int :=
  ⟨[⟨"x", [1, 2, 3]⟩, ⟨"y", [6, 5]⟩, ⟨"z", [7, 9, 8]⟩], ⟨"out", [-1, 0]⟩,
    [], none⟩

/-- C4: for every finite domain `D` and every `v ∈ D`, the Variable built
by `to_var(D)` satisfies `decode(encode(v)) == v`, and `encode(v)` is a
bitmask with exactly one bit set, namely at the index of the first
occurrence of `v` in `D` (index lookup uses first match). -/
theorem claim_C4 (D : List α) (nm : String) (v : α) (hv : v ∈ D) :
    (to_var D nm).decode ((to_var D nm).encode v) = some v ∧
      (to_var D nm).encode v = 2 ^ D.indexOf v ∧
      ∀ j, ((to_var D nm).encode v).testBit j = true ↔ j = D.indexOf v := by
  refine ⟨decode_shift_indexOf hv, ?_, fun j => ?_⟩
  · rw [Variable.encode, Nat.one_shiftLeft]
    rfl
  · rw [Variable.encode, Nat.one_shiftLeft, Nat.testBit_two_pow]
    show decide (D.indexOf v = j) = true ↔ j = D.indexOf v
    simp [eq_comm]

theorem claim_C4_witness :
    (to_var ([10, 20, 30] : List Int) "v").decode
        ((to_var ([10, 20, 30] : List Int) "v").encode 20) = some 20 ∧
      (to_var ([10, 20, 30] : List Int) "v").encode 20 =
        2 ^ ([10, 20, 30] : List Int).indexOf 20 ∧
      ∀ j, ((to_var ([10, 20, 30] : List Int) "v").encode 20).testBit j =
        true ↔ j = ([10, 20, 30] : List Int).indexOf 20 :=
  claim_C4 [10, 20, 30] "v" 20 (by decide)

/-- C5: the valid predicate of a `to_var` Variable over an `n`-value
domain, on an `n`-bit bitmask `m`, is true iff `m ≠ 0 ∧ m & (m-1) == 0`,
i.e. iff `m` is one-hot; in particular it is true on `encode(v)` for every
domain value and false on every bitmask with zero or several bits set. -/
theorem claim_C5 (D : List α) (nm : String) :
    (∀ m, m < 2 ^ D.length →
      (((to_var D nm).valid m = true) ↔ (m ≠ 0 ∧ m &&& (m - 1) = 0)) ∧
        (((to_var D nm).valid m = true) ↔ ∃ i, i < D.length ∧ m = 2 ^ i)) ∧
      ∀ v ∈ D, (to_var D nm).valid ((to_var D nm).encode v) = true :=
  ⟨fun _ hm => ⟨onehotValid_iff_land hm, onehotValid_iff_pow hm⟩,
    fun _ hv => valid_encode_of_mem_domain hv⟩

theorem claim_C5_witness :
    (((to_var ([5, 6] : List Int) "v").valid 2 = true ↔
        ((2 : Nat) ≠ 0 ∧ 2 &&& (2 - 1) = 0)) ∧
      ((to_var ([5, 6] : List Int) "v").valid 2 = true ↔
        ∃ i, i < ([5, 6] : List Int).length ∧ 2 = 2 ^ i)) ∧
      (to_var ([5, 6] : List Int) "v").valid
        ((to_var ([5, 6] : List Int) "v").encode 6) = true :=
  ⟨(claim_C5 [5, 6] "v").1 2 (by decide), (claim_C5 [5, 6] "v").2 6 (by decide)⟩

/-- C9: `decode` is total on every positive bitmask whose highest set bit
falls inside the domain, not only on one-hot ones: if `m.testBit i`, no
higher bit is set, and `i < |D|`, then `decode(m)` returns `D[i]` without
error even when `m` has several bits set; `decode(0)` fails. -/
theorem claim_C9 (D : List α) (nm : String) :
    (∀ m i, m.testBit i = true → (∀ j, m.testBit j = true → j ≤ i) →
      i < D.length →
      (to_var D nm).decode m = D.get? i ∧ (D.get? i).isSome = true) ∧
      (to_var D nm).decode 0 = none := by
  refine ⟨fun m i hbit hhigh hlen => ⟨?_, ?_⟩, rfl⟩
  · have hlo : 2 ^ i ≤ m := two_pow_le_of_testBit hbit
    have hhi : m < 2 ^ (i + 1) := lt_two_pow_of_highest hhigh
    rw [Variable.decode, pow2_exponent_of_bounds hlo hhi]
    rfl
  · rw [List.get?_eq_getElem?, List.getElem?_eq_getElem hlen]
    rfl

theorem claim_C9_witness :
    ((to_var ([10, 20, 30] : List Int) "v").decode 6 =
        ([10, 20, 30] : List Int).get? 2 ∧
      (([10, 20, 30] : List Int).get? 2).isSome = true) ∧
      (to_var ([10, 20, 30] : List Int) "v").decode 0 = none :=
  ⟨(claim_C9 [10, 20, 30] "v").1 6 2 (by decide)
    (by
      intro j hj
      by_contra hgt
      push_neg at hgt
      have h6 : (6 : Nat) < 2 ^ j :=
        lt_of_lt_of_le (by norm_num)
          (Nat.pow_le_pow_right (by norm_num) hgt)
      rw [Nat.testBit_eq_false_of_lt h6] at hj
      exact absurd hj (by simp))
    (by decide),
    (claim_C9 [10, 20, 30] "v").2⟩

/-- The C1 counterexample interface: one input `x : [0, 1]`, output
`y : [5]`, and the extra validity constraint `_valid = ¬ x[1]` (which an
`Interface` may carry, `mdd.py` line 155). -/
def ioC1 : Interface Int :=
  ⟨[⟨"x", [0, 1]⟩], ⟨"y", [5]⟩, [], some (BF.not (BF.bit "x" 1))⟩

set_option maxRecDepth 100000 in
/-- C1 is false as stated, in two ways.  On `ioC1` the assignment `x := 1`
maps every declared input name to a value of its domain — an admissible
full input in the claim's sense — yet fully evaluating `constantly(5)` on
it fails (the restriction makes the extra validity constraint false, so
`let`'s non-false assert raises) instead of returning `5`.  And on an
interface declaring no inputs, `constantly` itself fails (`valid()`
reduces an empty conjunction, a `TypeError`). -/
theorem claim_C1_counterexample :
    (AdmissibleInput ioC1 [("x", 1)] ∧
      (ioC1.constantly 5).bind (fun d => d.call [("x", 1)]) = none) ∧
      ((⟨[], ⟨"y", [5]⟩, [], none⟩ : Interface Int).constantly 5).bind
        (fun d => d.call []) = none := by
  decide

/-- C1 (amended): for every interface with at least one declared input,
every `v` in the output domain, and every admissible full input that also
satisfies the interface's extra validity constraint (when present),
`constantly(v)` fully evaluated via `__call__` returns exactly `v`. -/
theorem claim_C1 (io : Interface α) (hno : NamesOk io)
    (hne : io.inputs ≠ []) (v : α) (hv : v ∈ io.output.domain)
    (xs : List (String × α)) (hadm : AdmissibleInput io xs)
    (hex : extraOk io xs = true) :
    (io.constantly v).bind (fun d => d.call xs) = some v := by
  obtain ⟨c, hc, _, hcall⟩ := constantly_call_core hno hne hv hadm hex
  rw [hc, Option.some_bind]
  exact hcall

theorem claim_C1_witness :
    (ioRT.constantly (-1)).bind
      (fun d => d.call [("x", 2), ("y", 6), ("z", 9)]) = some (-1) :=
  claim_C1 ioRT (by decide) (by decide) (-1) (by decide)
    [("x", 2), ("y", 6), ("z", 9)] (by decide) (by decide)

/-- A concrete diagram over `ioRT` used by the C2/C3/C10 witnesses (the
claims quantify over every DecisionDiagram). -/
def dW : MDD Int := ⟨ioRT, BF.bit "out" 0⟩

/-- C2: for every DecisionDiagram `d`, boolean test `t` over the declared
input bits, and value or diagram `v`, the diagram `d.override(t, v)`,
fully evaluated on any admissible full input assignment (satisfying the
interface's extra validity constraint when present), returns the result of
`v` on that assignment whenever `t` holds on the assignment's one-hot
encoding, and the result of `d` whenever `t` does not hold. -/
theorem claim_C2 (d : MDD α) (hno : NamesOk d.interface)
    (hne : d.interface.inputs ≠ [])
    (xs : List (String × α)) (hadm : AdmissibleInput d.interface xs)
    (hex : extraOk d.interface xs = true)
    (t : BF) (hsup : ∀ b ∈ t.support, b ∈ d.interface.inputBits) :
    (∀ v : MDD α, v.interface = d.interface →
      (d.override t v).call xs =
        if t.eval (assignOf d.interface xs) = true then v.call xs
        else d.call xs) ∧
      (∀ w ∈ d.interface.output.domain,
        ∃ d', d.overrideVal t w = some d' ∧
          d'.call xs =
            if t.eval (assignOf d.interface xs) = true then some w
            else d.call xs) := by
  obtain ⟨io, b⟩ := d
  constructor
  · rintro ⟨iov, bv⟩ hiov
    have hiov' : iov = io := hiov
    subst hiov'
    exact override_call_core hno hadm hsup b bv
  · intro w hw
    obtain ⟨c, hc, hcio, hcall⟩ := constantly_call_core hno hne hw hadm hex
    refine ⟨DecisionDiagram.override ⟨io, b⟩ t c, ?_, ?_⟩
    · rw [DecisionDiagram.overrideVal, hc, Option.map_some']
    · obtain ⟨ioc, bc⟩ := c
      have hcio' : io = ioc := hcio.symm
      subst hcio'
      have hcore := override_call_core hno hadm hsup b bc
      rw [show DecisionDiagram.override ⟨io, b⟩ t ⟨io, bc⟩ =
        ⟨io, BF.and (BF.or (BF.not t) bc) (BF.or t b)⟩ from rfl, hcore]
      by_cases htv : t.eval (assignOf io xs) = true
      · rw [if_pos htv, if_pos htv]
        exact hcall
      · rw [if_neg htv, if_neg htv]

set_option maxRecDepth 100000 in
theorem claim_C2_witness :
    (∀ v : MDD Int, v.interface = dW.interface →
      (dW.override (BF.bit "x" 1) v).call [("x", 2), ("y", 6), ("z", 9)] =
        if (BF.bit "x" 1).eval
            (assignOf dW.interface [("x", 2), ("y", 6), ("z", 9)]) = true then
          v.call [("x", 2), ("y", 6), ("z", 9)]
        else dW.call [("x", 2), ("y", 6), ("z", 9)]) ∧
      (∀ w ∈ dW.interface.output.domain,
        ∃ d', dW.overrideVal (BF.bit "x" 1) w = some d' ∧
          d'.call [("x", 2), ("y", 6), ("z", 9)] =
            if (BF.bit "x" 1).eval
                (assignOf dW.interface [("x", 2), ("y", 6), ("z", 9)]) = true
            then some w else dW.call [("x", 2), ("y", 6), ("z", 9)]) :=
  claim_C2 dW (by decide) (by decide) [("x", 2), ("y", 6), ("z", 9)]
    (by decide) (by decide) (BF.bit "x" 1) (by decide)

/-- C3: partial application commutes with full application: for every
DecisionDiagram and every admissible full input split into two disjoint
parts `p` and `q`, `d.let(p)(q)` equals `d(p ∪ q)` (both evaluations fail
in exactly the same cases, so the equation is stated on the optional
results). -/
theorem claim_C3 (d : MDD α) (p q : List (String × α))
    (hdisj : ∀ n ∈ p.map Prod.fst, n ∉ q.map Prod.fst)
    (hadm : AdmissibleInput d.interface (p ++ q)) :
    (d.letOpt p).bind (fun d' => d'.call q) = d.call (p ++ q) :=
  let_call_append d p q

set_option maxRecDepth 100000 in
theorem claim_C3_witness :
    (dW.letOpt [("x", 2)]).bind (fun d' => d'.call [("y", 6), ("z", 9)]) =
      dW.call ([("x", 2)] ++ [("y", 6), ("z", 9)]) :=
  claim_C3 dW [("x", 2)] [("y", 6), ("z", 9)] (by decide) (by decide)

/-- A small interface (one input `x : [0,1]`, output `y : [5]`) for the
C10 counterexample. -/
def ioSmall : Interface Int := ⟨[⟨"x", [0, 1]⟩], ⟨"y", [5]⟩, [], none⟩

/-- A contradictory formula over the input bits: `x[0] ∧ ¬ x[0]` (its BDD
is the false node). -/
def unsatBF : BF := BF.and (BF.bit "x" 0) (BF.not (BF.bit "x" 0))

set_option maxRecDepth 100000 in
/-- C10 is false as stated: a DecisionDiagram whose formula is the false
BDD node is constructible through the public API (`lift` of a
contradictory circuit conjoins it with `valid()` and raises no error),
and on such a diagram `let({})` fails the "not the false node" assert
instead of succeeding. -/
theorem claim_C10_counterexample :
    (ioSmall.lift unsatBF).isSome = true ∧
      (ioSmall.lift unsatBF).bind (fun d => d.letOpt []) = none := by
  decide

/-- C10 (amended): empty partial application is the identity on every
DecisionDiagram whose formula is satisfiable (not the false BDD node):
`d.let({})` succeeds and returns a diagram with the same formula and the
same applied set — indeed `d` itself. -/
theorem claim_C10 (d : MDD α) (hs : d.bdd.satB = true) :
    d.letOpt [] = some d := by
  obtain ⟨io, b⟩ := d
  have henc : encodeVals io ([] : List (String × α)) = some [] := rfl
  rw [letOpt_some_sat henc (by rw [restrict_nil]; exact hs)]
  simp [restrict_nil]

theorem claim_C10_witness : dW.letOpt [] = some dW :=
  claim_C10 dW (by decide)

theorem mem_upsert_names (acc : List (Variable α)) (v : Variable α)
    (n : String) :
    n ∈ (upsert acc v).map Variable.name ↔
      n ∈ acc.map Variable.name ∨ n = v.name := by
  induction acc with
  | nil => simp [upsert]
  | cons w ws ih =>
      rw [upsert]
      by_cases h : w.name = v.name
      · rw [if_pos h]
        simp only [List.map_cons, List.mem_cons, h]
        tauto
      · rw [if_neg h]
        simp only [List.map_cons, List.mem_cons, ih]
        tauto

theorem upsert_nodup {acc : List (Variable α)} (v : Variable α)
    (h : (acc.map Variable.name).Nodup) :
    ((upsert acc v).map Variable.name).Nodup := by
  induction acc with
  | nil => simp [upsert]
  | cons w ws ih =>
      rw [upsert]
      obtain ⟨hw, hws⟩ := List.nodup_cons.mp
        (show (w.name :: ws.map Variable.name).Nodup from h)
      by_cases hh : w.name = v.name
      · rw [if_pos hh]
        simp only [List.map_cons, List.nodup_cons]
        exact ⟨by rw [← hh]; exact hw, hws⟩
      · rw [if_neg hh]
        simp only [List.map_cons, List.nodup_cons]
        refine ⟨?_, ih hws⟩
        rw [mem_upsert_names]
        rintro (hc | hc)
        · exact hw hc
        · exact hh hc

theorem to_vars_nodup (vals : List (Variable α)) :
    ((to_vars vals).map Variable.name).Nodup := by
  rw [to_vars]
  suffices h : ∀ acc : List (Variable α), (acc.map Variable.name).Nodup →
      ((vals.foldl upsert acc).map Variable.name).Nodup from h [] (by simp)
  induction vals with
  | nil => exact fun acc h => h
  | cons v vs ih =>
      intro acc h
      rw [List.foldl_cons]
      exact ih _ (upsert_nodup v h)

theorem mkInterface_none_eq (inputs : List (Variable α))
    (output : Variable α) :
    mkInterface inputs output none =
      if ((to_vars inputs).map Variable.name ++ [output.name]).Nodup then
        some ⟨to_vars inputs, output, [], none⟩
      else none := rfl

set_option maxRecDepth 100000 in
/-- C8 is false as stated: a specification with two input Variables both
named `"x"` is accepted — `to_vars` builds the name-keyed dict, which
silently keeps only the last Variable per name, so the uniqueness check in
`__attrs_post_init__` sees no duplicate and construction returns an
Interface (with the first `x` domain silently dropped) instead of
failing. -/
theorem claim_C8_counterexample :
    ¬ (([⟨"x", [1, 2]⟩, ⟨"x", [3]⟩] : List (Variable Int)).map
        Variable.name).Nodup ∧
      mkInterface [⟨"x", [1, 2]⟩, ⟨"x", [3]⟩] (⟨"y", [0]⟩ : Variable Int)
        none = some ⟨[⟨"x", [3]⟩], ⟨"y", [0]⟩, [], none⟩ := by
  decide

/-- C8 (amended): construction (without an extra validity constraint)
fails exactly when the output name collides with an input name *after*
`to_vars` has collapsed duplicate input names (last Variable per name
wins); duplicate input names themselves are silently merged, never
rejected. -/
theorem claim_C8 (inputs : List (Variable α)) (output : Variable α) :
    (mkInterface inputs output none = none ↔
      output.name ∈ (to_vars inputs).map Variable.name) ∧
      (output.name ∉ (to_vars inputs).map Variable.name →
        mkInterface inputs output none =
          some ⟨to_vars inputs, output, [], none⟩) := by
  rw [mkInterface_none_eq]
  by_cases h : ((to_vars inputs).map Variable.name ++ [output.name]).Nodup
  · rw [if_pos h]
    refine ⟨⟨fun hc => absurd hc (by simp), fun hmem => ?_⟩, fun _ => rfl⟩
    exfalso
    obtain ⟨-, -, hdisj⟩ := List.nodup_append.mp h
    exact hdisj hmem (by simp)
  · rw [if_neg h]
    have hmem : output.name ∈ (to_vars inputs).map Variable.name := by
      by_contra hmem
      refine h (List.nodup_append.mpr
        ⟨to_vars_nodup inputs, List.nodup_singleton _, ?_⟩)
      intro a ha hb
      rw [List.mem_singleton] at hb
      subst hb
      exact hmem ha
    exact ⟨⟨fun _ => hmem, fun _ => rfl⟩, fun hc => absurd hmem hc⟩

theorem claim_C8_witness :
    mkInterface ([⟨"x", [1, 2]⟩] : List (Variable Int)) ⟨"y", [0]⟩ none =
      some ⟨to_vars [⟨"x", [1, 2]⟩], ⟨"y", [0]⟩, [], none⟩ :=
  (claim_C8 [⟨"x", [1, 2]⟩] ⟨"y", [0]⟩).2 (by decide)

/-- A guard whose BDD is the always-false node: `x[0] ∧ ¬ x[0]` (as a
circuit it still ranges over the signal `x`). -/
def guardFF : BF := BF.and (BF.bit "x" 0) (BF.not (BF.bit "x" 0))

set_option maxRecDepth 100000 in
/-- C6 is false as stated: on a guard that reduces to the always-false
formula, `solutions` raises nothing — its assert only compares against the
always-TRUE node (`assert bdd != bdd.bdd.true`, `nx.py` line 84) — and the
model enumeration silently yields the empty set of domain values. -/
theorem claim_C6_counterexample :
    BF.equiv guardFF BF.ff = true ∧
      solutions (⟨"x", [0, 1]⟩ : Variable Int) guardFF = some [] := by
  decide

/-- C6 (amended): the concrete-edge resolution `solutions` raises exactly
on a guard equivalent to the always-true formula (the `"BDD not
reduced?!"` assert); a guard equivalent to the always-false formula is
silently resolved to the empty set of domain values. -/
theorem claim_C6 (w : Variable α) (guard : BF) :
    (BF.equiv guard BF.ff = true → solutions w guard = some []) ∧
      (BF.equiv guard BF.tt = true → solutions w guard = none) := by
  constructor
  · intro hff
    have hfalse : ∀ a, guard.eval a = false := fun a => equiv_iff.mp hff a
    have hne : ¬ BF.equiv guard BF.tt = true := by
      intro htt
      have h1 := equiv_iff.mp htt (fun _ => false)
      rw [hfalse] at h1
      simp [BF.eval] at h1
    rw [solutions, if_neg hne]
    have hfil : ((List.range (2 ^ w.size)).filter fun m =>
        guard.eval fun b => if b.1 = w.name then m.testBit b.2 else false) =
        [] := by
      refine List.filter_eq_nil_iff.mpr fun m _ => ?_
      rw [hfalse]
      simp
    rw [hfil]
    rfl
  · intro htt
    rw [solutions, if_pos htt]

theorem claim_C6_witness :
    solutions (⟨"x", [0, 1]⟩ : Variable Int) guardFF = some [] :=
  (claim_C6 ⟨"x", [0, 1]⟩ guardFF).1 (by decide)

/-- C7: node identities in the exported graph are remapped to small
sequential integers unconditionally — for *every* value of the export's
options (`symbolic_edges` here; `order` only selects the traversal's BDD
level order), the returned node set is `0 .. n-1`.  The code offers no
option preserving original identities, although `tests/test_nx.py` line 35
calls `to_nx(func, reindex=False)` expecting one. -/
theorem claim_C7 {ν : Type} [DecidableEq ν] (io : Interface α)
    (g : Digraph ν BF) (se : Bool) (G : Digraph Nat (BF ⊕ List α))
    (h : to_nx_export io g se = some G) :
    G.nodes = List.range g.nodes.length := by
  rw [to_nx_export] at h
  cases se with
  | true =>
      rw [if_pos rfl] at h
      injection h with h
      rw [← h]
      rfl
  | false =>
      rw [if_neg (by simp)] at h
      obtain ⟨h', hcg, hG⟩ := Option.map_eq_some'.mp h
      rw [← hG]
      show h'.nodes = List.range g.nodes.length
      rw [concrete_graph_nodes hcg]
      rfl

/-- A one-input interface and a two-node graph with original node
identities `5` and `7`, for the C7 witness. -/
def ioC7 : Interface Int := ⟨[⟨"x", [0, 1]⟩], ⟨"y", [3]⟩, [], none⟩

def gC7 : Digraph Nat BF := ⟨[5, 7], [(5, 7, BF.bit "x" 0)]⟩

set_option maxRecDepth 100000 in
theorem claim_C7_witness :
    (⟨[0, 1], [(0, 1, Sum.inr [0, 1])]⟩ :
        Digraph Nat (BF ⊕ List Int)).nodes =
      List.range gC7.nodes.length :=
  claim_C7 ioC7 gC7 false ⟨[0, 1], [(0, 1, Sum.inr [0, 1])]⟩ (by decide)

end Mdd
